import Mathlib

/-!
Verification of the Snapchat Memories Organizer (organize_memories_gui2.py and
organize_memories_gui.py) against its natural-language specification.

The Python sources are shallowly embedded: strings are lists of characters,
the regular-expression date patterns are fixed-length character-class lists
with word-boundary checks, `datetime.strptime`/`strftime` calls are modelled
by explicit calendar validation and decimal formatting, and the worker loop
is a structural recursion over the extracted item list.  Filesystem facts
(existence of source paths, file modification times, success of `shutil.copy2`)
are abstracted into per-item environments, and the destination directory is
modelled as the list of destination paths that currently exist.
-/

namespace Memories

/-- Strings are modelled as lists of characters. -/
abbrev Str := List Char

/-- Turn a Lean string literal into the character-list model. -/
def strL (s : String) : Str := s.data

/-- Model of Python `str.lower()` restricted to ASCII letters. -/
def lowerChar (c : Char) : Char :=
  if 'A' ≤ c ∧ c ≤ 'Z' then Char.ofNat (c.toNat + 32) else c

/-- `tag.lower()` applied characterwise. -/
def lowerStr (cs : Str) : Str := cs.map lowerChar

/-- ASCII decimal digit, the model of the regex class `\d`. -/
def isDigitC (c : Char) : Bool := c.isDigit

/-- ASCII word character, the model of the regex class `\w` used by `\b`. -/
def isWordC (c : Char) : Bool := c.isAlphanum || c == '_'

/-- Model of Python `str.strip()`: drop whitespace from both ends. -/
def pyStrip (cs : Str) : Str :=
  ((cs.dropWhile Char.isWhitespace).reverse.dropWhile Char.isWhitespace).reverse

/-- Model of `pathlib.Path(p).name`: the part after the last slash. -/
def pathName (cs : Str) : Str :=
  (cs.reverse.takeWhile (fun c => c != '/')).reverse

/-- Model of `s.split("?", 1)[0]`: everything before the first question mark. -/
def splitQFirst : Str → Str
  | [] => []
  | c :: cs => if c == '?' then [] else c :: splitQFirst cs

/-- `normalize_src` from organize_memories_gui2.py (identical in the gui
variant): strip whitespace, drop one leading `.//` or `./` marker, and cut
a query suffix. -/
def normalize_src (src : Str) : Str :=
  let s := pyStrip src
  let s := if s.take 3 == strL ".//" then s.drop 3
           else if s.take 2 == strL "./" then s.drop 2
           else s
  splitQFirst s

/-- Value of a decimal digit character. -/
def digitVal (c : Char) : Nat := c.toNat - 48

/-- Read a digit string as a number, `int`-style (used to model how
`strptime` interprets captured digit groups). -/
def digitsToNat (cs : Str) : Nat :=
  cs.foldl (fun a c => a * 10 + digitVal c) 0

/-- Fuel-driven decimal rendering; `fuel` only has to exceed the number. -/
def natToStrAux : Nat → Nat → Str
  | 0, _ => []
  | fuel + 1, n =>
    if n < 10 then [Nat.digitChar n]
    else natToStrAux fuel (n / 10) ++ [Nat.digitChar (n % 10)]

/-- Model of Python `str(n)` for a natural number. -/
def natToStr (n : Nat) : Str := natToStrAux (n + 1) n

/-- Model of zero padding as performed by `strftime` for `%m`/`%d`. -/
def zfill (w : Nat) (cs : Str) : Str :=
  List.replicate (w - cs.length) '0' ++ cs

theorem digitChar_toNat (d : Nat) (h : d < 10) :
    (Nat.digitChar d).toNat = 48 + d := by
  interval_cases d <;> decide

theorem digitChar_isDigit (d : Nat) (h : d < 10) :
    isDigitC (Nat.digitChar d) = true := by
  interval_cases d <;> decide

theorem digitsToNat_append_last (xs : Str) (c : Char) :
    digitsToNat (xs ++ [c]) = digitsToNat xs * 10 + digitVal c := by
  simp [digitsToNat, List.foldl_append]

theorem natToStrAux_roundtrip : ∀ (fuel n : Nat), n < fuel →
    digitsToNat (natToStrAux fuel n) = n := by
  intro fuel
  induction fuel with
  | zero => intro n h; omega
  | succ f ih =>
    intro n h
    by_cases h10 : n < 10
    · simp [natToStrAux, h10, digitsToNat, digitVal, digitChar_toNat n h10]
    · have hf : n / 10 < f := by omega
      simp only [natToStrAux, if_neg h10, digitsToNat_append_last, ih _ hf]
      have := digitChar_toNat (n % 10) (Nat.mod_lt n (by omega))
      simp [digitVal, this]
      omega

theorem natToStr_roundtrip (n : Nat) : digitsToNat (natToStr n) = n :=
  natToStrAux_roundtrip (n + 1) n (Nat.lt_succ_self n)

theorem natToStr_injective (a b : Nat) (h : natToStr a = natToStr b) : a = b := by
  have := natToStr_roundtrip a
  rw [h, natToStr_roundtrip] at this
  omega

theorem natToStrAux_all_digit : ∀ (fuel n : Nat), n < fuel →
    (natToStrAux fuel n).all isDigitC = true := by
  intro fuel
  induction fuel with
  | zero => intro n h; omega
  | succ f ih =>
    intro n h
    by_cases h10 : n < 10
    · simp [natToStrAux, h10, digitChar_isDigit n h10]
    · have hf : n / 10 < f := by omega
      simp [natToStrAux, h10, List.all_append, ih _ hf,
        digitChar_isDigit (n % 10) (Nat.mod_lt n (by omega))]

theorem natToStr_all_digit (n : Nat) : (natToStr n).all isDigitC = true :=
  natToStrAux_all_digit (n + 1) n (Nat.lt_succ_self n)

theorem natToStrAux_length_le : ∀ (fuel n k : Nat), n < fuel → n < 10 ^ k →
    1 ≤ k → (natToStrAux fuel n).length ≤ k := by
  intro fuel
  induction fuel with
  | zero => intro n k h; omega
  | succ f ih =>
    intro n k h hk hk1
    by_cases h10 : n < 10
    · simp [natToStrAux, h10]; omega
    · have hf : n / 10 < f := by omega
      have hk2 : 2 ≤ k := by
        by_contra hc
        have : k = 1 := by omega
        subst this
        simp at hk
        omega
      have hdiv : n / 10 < 10 ^ (k - 1) := by
        have h10k : 10 ^ (k - 1) * 10 = 10 ^ k := by
          have : k - 1 + 1 = k := by omega
          calc 10 ^ (k - 1) * 10 = 10 ^ (k - 1 + 1) := by ring
            _ = 10 ^ k := by rw [this]
        rw [Nat.div_lt_iff_lt_mul (by omega)]
        omega
      have := ih (n / 10) (k - 1) hf hdiv (by omega)
      simp only [natToStrAux, if_neg h10, List.length_append, List.length_cons,
        List.length_nil]
      omega

theorem natToStrAux_length_ge : ∀ (fuel n k : Nat), n < fuel → 10 ^ k ≤ n →
    k + 1 ≤ (natToStrAux fuel n).length := by
  intro fuel
  induction fuel with
  | zero => intro n k h; omega
  | succ f ih =>
    intro n k h hk
    by_cases h10 : n < 10
    · have hk0 : k = 0 := by
        by_contra hc
        have : 10 ≤ 10 ^ k := by
          calc 10 = 10 ^ 1 := by norm_num
            _ ≤ 10 ^ k := Nat.pow_le_pow_right (by omega) (by omega)
        omega
      subst hk0
      simp [natToStrAux, h10]
    · have hf : n / 10 < f := by omega
      rcases Nat.eq_zero_or_pos k with hk0 | hkpos
      · subst hk0
        simp only [natToStrAux, if_neg h10, List.length_append]
        have : 10 ^ 0 ≤ n / 10 := by
          simp only [pow_zero]
          omega
        have := ih (n / 10) 0 hf this
        omega
      · have hdiv : 10 ^ (k - 1) ≤ n / 10 := by
          rw [Nat.le_div_iff_mul_le (by omega)]
          have : 10 ^ (k - 1) * 10 = 10 ^ k := by
            have hke : k - 1 + 1 = k := by omega
            calc 10 ^ (k - 1) * 10 = 10 ^ (k - 1 + 1) := by ring
              _ = 10 ^ k := by rw [hke]
          omega
        have := ih (n / 10) (k - 1) hf hdiv
        simp only [natToStrAux, if_neg h10, List.length_append, List.length_cons,
          List.length_nil]
        omega

theorem natToStr_length_le (n k : Nat) (h : n < 10 ^ k) (hk : 1 ≤ k) :
    (natToStr n).length ≤ k :=
  natToStrAux_length_le (n + 1) n k (Nat.lt_succ_self n) h hk

theorem natToStr_length_ge (n k : Nat) (h : 10 ^ k ≤ n) :
    k + 1 ≤ (natToStr n).length :=
  natToStrAux_length_ge (n + 1) n k (Nat.lt_succ_self n) h

theorem digitsToNat_replicate_zero (k : Nat) (s : Str) :
    digitsToNat (List.replicate k '0' ++ s) = digitsToNat s := by
  induction k with
  | zero => simp
  | succ m ih =>
    simp only [List.replicate_succ, List.cons_append, digitsToNat, List.foldl_cons]
    have h0 : digitVal '0' = 0 := by decide
    simpa [digitsToNat, h0] using ih

/-! ### Regular-expression model

Every pattern in `DATE_PATTERNS` is a fixed-length sequence of character
classes wrapped in `\b ... \b`; since each pattern starts and ends with `\d`
(a word character), the boundary requires the neighbouring character, when it
exists, not to be a word character.  `re.search` returns the leftmost match. -/

/-- A fixed-length pattern: one character predicate per position. -/
abbrev Pat := List (Char → Bool)

/-- Does the pattern match at offset `i`, including both word boundaries? -/
def patMatchesAt (p : Pat) (cs : Str) (i : Nat) : Bool :=
  decide (i + p.length ≤ cs.length)
  && (List.zip p ((cs.drop i).take p.length)).all (fun pc => pc.1 pc.2)
  && (match i with
      | 0 => true
      | j + 1 => !(isWordC (cs.getD j ' ')))
  && (decide (cs.length ≤ i + p.length) || !(isWordC (cs.getD (i + p.length) ' ')))

/-- Model of `re.search(pattern, data)`: the leftmost match, as a substring. -/
def reSearch (p : Pat) (cs : Str) : Option Str :=
  ((List.range (cs.length + 1)).find? (fun i => patMatchesAt p cs i)).map
    (fun i => (cs.drop i).take p.length)

def dashC (c : Char) : Bool := c == '-'
def underC (c : Char) : Bool := c == '_'

/-- `\b\d{4}-\d{2}-\d{2}\b` -/
def PAT_ISO : Pat :=
  [isDigitC, isDigitC, isDigitC, isDigitC, dashC, isDigitC, isDigitC, dashC,
   isDigitC, isDigitC]

/-- `\b\d{2}-\d{2}-\d{4}\b` -/
def PAT_MDY : Pat :=
  [isDigitC, isDigitC, dashC, isDigitC, isDigitC, dashC, isDigitC, isDigitC,
   isDigitC, isDigitC]

/-- `\b\d{4}_\d{2}_\d{2}\b` -/
def PAT_UND : Pat :=
  [isDigitC, isDigitC, isDigitC, isDigitC, underC, isDigitC, isDigitC, underC,
   isDigitC, isDigitC]

/-- `\b\d{8}\b` -/
def PAT_D8 : Pat := List.replicate 8 isDigitC

/-- `\b\d{6}\b` -/
def PAT_D6 : Pat := List.replicate 6 isDigitC

/-- `DATE_PATTERNS` from organize_memories_gui2.py, in source order. -/
def DATE_PATTERNS : List Pat := [PAT_ISO, PAT_MDY, PAT_UND, PAT_D8, PAT_D6]

theorem reSearch_none_of_short (p : Pat) (cs : Str) (h : cs.length < p.length) :
    reSearch p cs = none := by
  have hf : (List.range (cs.length + 1)).find? (fun i => patMatchesAt p cs i) = none := by
    rw [List.find?_eq_none]
    intro i _
    unfold patMatchesAt
    have : ¬ (i + p.length ≤ cs.length) := by omega
    simp [this]
  simp [reSearch, hf]

/-! ### Calendar dates and the `strptime`/`strftime` model -/

/-- A parsed date, as produced by `datetime.strptime`. -/
structure PyDate where
  year : Nat
  month : Nat
  day : Nat
deriving DecidableEq

/-- Gregorian leap-year rule, as applied by `datetime`. -/
def isLeap (y : Nat) : Bool :=
  y % 4 == 0 && (y % 100 != 0 || y % 400 == 0)

def daysInMonth (y m : Nat) : Nat :=
  if m == 2 then (if isLeap y then 29 else 28)
  else if m == 4 || m == 6 || m == 9 || m == 11 then 30
  else 31

/-- The date ranges `datetime` accepts (year 1..9999, real calendar day). -/
def validDate (y m d : Nat) : Bool :=
  decide (1 ≤ y) && decide (y ≤ 9999) && decide (1 ≤ m) && decide (m ≤ 12)
  && decide (1 ≤ d) && decide (d ≤ daysInMonth y m)

/-- `datetime.strptime(s, "%y%m%d")`: two-digit year (00-68 maps to 2000-2068,
69-99 to 1969-1999), then month and day, validated as a calendar date. -/
def parseYYMMDD (cs : Str) : Option PyDate :=
  if cs.length == 6 && cs.all isDigitC then
    let yy := digitsToNat (cs.take 2)
    let y := if yy ≤ 68 then 2000 + yy else 1900 + yy
    let m := digitsToNat ((cs.drop 2).take 2)
    let d := digitsToNat (cs.drop 4)
    if validDate y m d then some ⟨y, m, d⟩ else none
  else none

/-- `datetime.strptime(s, "%m%d%y")`, same rules with the fields reordered. -/
def parseMMDDYY (cs : Str) : Option PyDate :=
  if cs.length == 6 && cs.all isDigitC then
    let m := digitsToNat (cs.take 2)
    let d := digitsToNat ((cs.drop 2).take 2)
    let yy := digitsToNat (cs.drop 4)
    let y := if yy ≤ 68 then 2000 + yy else 1900 + yy
    if validDate y m d then some ⟨y, m, d⟩ else none
  else none

/-- Shape test for `re.match(r"\d{2}-\d{2}-\d{4}", s)` (anchored at the start,
not at the end). -/
def matchesMDYShape (cs : Str) : Bool :=
  decide (10 ≤ cs.length)
  && (cs.take 2).all isDigitC && (cs.drop 2).take 1 == ['-']
  && ((cs.drop 3).take 2).all isDigitC && (cs.drop 5).take 1 == ['-']
  && ((cs.drop 6).take 4).all isDigitC

/-- `datetime.strptime(s, "%m-%d-%Y")` on the exact-length padded form. -/
def parseMMDDYYYY (cs : Str) : Option PyDate :=
  if cs.length == 10 && matchesMDYShape cs then
    let m := digitsToNat (cs.take 2)
    let d := digitsToNat ((cs.drop 3).take 2)
    let y := digitsToNat (cs.drop 6)
    if validDate y m d then some ⟨y, m, d⟩ else none
  else none

/-- `dt.strftime("%Y-%m-%d")`: the year unpadded (glibc behaviour; it has four
digits for every year this program can produce here), month and day
zero-padded to two digits. -/
def formatDate (dt : PyDate) : Str :=
  natToStr dt.year ++ '-' :: (zfill 2 (natToStr dt.month) ++ '-' :: zfill 2 (natToStr dt.day))

/-- `datetime.strptime(s, "%Y-%m-%d")` as a validity test on the canonical
zero-padded ten-character form (the only form this program ever produces). -/
def validISO (cs : Str) : Bool :=
  match cs with
  | [y1, y2, y3, y4, s1, m1, m2, s2, d1, d2] =>
    isDigitC y1 && isDigitC y2 && isDigitC y3 && isDigitC y4
    && s1 == '-' && isDigitC m1 && isDigitC m2 && s2 == '-'
    && isDigitC d1 && isDigitC d2
    && validDate (digitsToNat [y1, y2, y3, y4]) (digitsToNat [m1, m2])
        (digitsToNat [d1, d2])
  | _ => false

/-- The normalisation branch chain shared by `MemoriesHTML.handle_data` and
`date_from_name` (lines 59-73 and 97-111 of organize_memories_gui2.py),
before the final validation; `none` models a raised `ValueError`. -/
def normCore (cs : Str) : Option Str :=
  if cs.contains '_' then
    some (cs.map (fun c => if c == '_' then '-' else c))
  else if cs.length == 8 && !(cs.contains '-') then
    some (cs.take 4 ++ '-' :: ((cs.drop 4).take 2 ++ '-' :: (cs.drop 6).take 2))
  else if cs.length == 6 then
    match parseYYMMDD cs with
    | some dt => some (formatDate dt)
    | none =>
      match parseMMDDYY cs with
      | some dt => some (formatDate dt)
      | none => none
  else if matchesMDYShape cs then
    match parseMMDDYYYY cs with
    | some dt => some (formatDate dt)
    | none => none
  else some cs

/-- Normalisation followed by the final `datetime.strptime(date_str,
"%Y-%m-%d")` validation inside the same `try` block; `none` models the
`except ValueError: continue`. -/
def normalizeDateStr (cs : Str) : Option Str :=
  match normCore cs with
  | some ds => if validISO ds then some ds else none
  | none => none

theorem normalizeDateStr_valid (cs ds : Str) (h : normalizeDateStr cs = some ds) :
    validISO ds = true := by
  unfold normalizeDateStr at h
  cases hc : normCore cs with
  | none => simp [hc] at h
  | some x =>
    simp only [hc] at h
    by_cases hv : validISO x = true
    · rw [if_pos hv] at h
      obtain rfl := Option.some.inj h
      exact hv
    · rw [if_neg hv] at h
      exact absurd h (by simp)

/-- The `for pattern in DATE_PATTERNS` loop of `handle_data` and
`date_from_name`: first pattern whose leftmost match survives normalisation
and validation wins (`break`); a failed match or a `ValueError` means
`continue`. -/
def tryPatterns : List Pat → Str → Option Str
  | [], _ => none
  | p :: ps, data =>
    match reSearch p data with
    | some m =>
      match normalizeDateStr m with
      | some ds => some ds
      | none => tryPatterns ps data
    | none => tryPatterns ps data

/-- The specification-level characterisation used to settle C4: try the
patterns in listed order and keep the first normalised result. -/
def firstDateHint (data : Str) : Option Str :=
  DATE_PATTERNS.findSome? (fun p => (reSearch p data).bind normalizeDateStr)

theorem tryPatterns_eq_findSome (ps : List Pat) (data : Str) :
    tryPatterns ps data = ps.findSome? (fun p => (reSearch p data).bind normalizeDateStr) := by
  induction ps with
  | nil => rfl
  | cons p ps ih =>
    rw [List.findSome?_cons]
    unfold tryPatterns
    cases hm : reSearch p data with
    | none => simp [ih]
    | some m =>
      cases hn : normalizeDateStr m with
      | none => simp [hn, ih]
      | some ds => simp [hn]

theorem tryPatterns_some (ps : List Pat) (data ds : Str)
    (h : tryPatterns ps data = some ds) :
    ∃ p m, p ∈ ps ∧ reSearch p data = some m ∧ normalizeDateStr m = some ds := by
  induction ps with
  | nil => exact absurd h (by simp [tryPatterns])
  | cons p ps ih =>
    unfold tryPatterns at h
    cases hm : reSearch p data with
    | none =>
      simp only [hm] at h
      obtain ⟨q, m, hq, h1, h2⟩ := ih h
      exact ⟨q, m, List.mem_cons_of_mem _ hq, h1, h2⟩
    | some m =>
      simp only [hm] at h
      cases hn : normalizeDateStr m with
      | none =>
        simp only [hn] at h
        obtain ⟨q, m2, hq, h1, h2⟩ := ih h
        exact ⟨q, m2, List.mem_cons_of_mem _ hq, h1, h2⟩
      | some ds2 =>
        simp only [hn] at h
        obtain rfl := Option.some.inj h
        exact ⟨p, m, List.mem_cons_self _ _, hm, hn⟩

/-- `date_from_name` from organize_memories_gui2.py: run the shared pattern
loop over `path.name`, returning `""` when nothing matches. -/
def date_from_name (name : Str) : Str :=
  (tryPatterns DATE_PATTERNS name).getD []

theorem date_from_name_valid (name : Str) (h : date_from_name name ≠ []) :
    validISO (date_from_name name) = true := by
  unfold date_from_name at h ⊢
  cases ht : tryPatterns DATE_PATTERNS name with
  | none => simp [ht] at h
  | some ds =>
    obtain ⟨p, m, _, _, hn⟩ := tryPatterns_some _ _ _ ht
    simpa using normalizeDateStr_valid m ds hn

theorem exists_len4 (l : Str) (h : l.length = 4) :
    ∃ a b c d, l = [a, b, c, d] := by
  rcases l with _ | ⟨a, _ | ⟨b, _ | ⟨c, _ | ⟨d, _ | ⟨e, t⟩⟩⟩⟩⟩ <;> simp_all

theorem exists_len2 (l : Str) (h : l.length = 2) :
    ∃ a b, l = [a, b] := by
  rcases l with _ | ⟨a, _ | ⟨b, _ | ⟨c, t⟩⟩⟩ <;> simp_all

theorem validISO_build (A B C : Str)
    (hA : A.length = 4) (hB : B.length = 2) (hC : C.length = 2)
    (dA : A.all isDigitC = true) (dB : B.all isDigitC = true)
    (dC : C.all isDigitC = true)
    (hv : validDate (digitsToNat A) (digitsToNat B) (digitsToNat C) = true) :
    validISO (A ++ '-' :: (B ++ '-' :: C)) = true := by
  obtain ⟨a1, a2, a3, a4, rfl⟩ := exists_len4 A hA
  obtain ⟨b1, b2, rfl⟩ := exists_len2 B hB
  obtain ⟨c1, c2, rfl⟩ := exists_len2 C hC
  simp only [List.all_cons, List.all_nil, Bool.and_true, Bool.and_eq_true] at dA dB dC
  simp only [List.cons_append, List.nil_append, validISO]
  simp [dA.1, dA.2.1, dA.2.2.1, dA.2.2.2, dB.1, dB.2, dC.1, dC.2, hv]

theorem natToStr_length_four (y : Nat) (h1 : 1000 ≤ y) (h2 : y ≤ 9999) :
    (natToStr y).length = 4 := by
  have hle := natToStr_length_le y 4 (by omega) (by omega)
  have hge := natToStr_length_ge y 3 (by norm_num; omega)
  omega

theorem natToStrAux_length_pos : ∀ (fuel n : Nat), n < fuel →
    1 ≤ (natToStrAux fuel n).length := by
  intro fuel
  cases fuel with
  | zero => intro n h; omega
  | succ f =>
    intro n _
    by_cases h10 : n < 10
    · simp [natToStrAux, h10]
    · simp [natToStrAux, h10]

theorem natToStr_length_pos (n : Nat) : 1 ≤ (natToStr n).length :=
  natToStrAux_length_pos (n + 1) n (Nat.lt_succ_self n)

theorem zfill2_length (n : Nat) (h : n ≤ 99) : (zfill 2 (natToStr n)).length = 2 := by
  have hle := natToStr_length_le n 2 (by omega) (by omega)
  have hge := natToStr_length_pos n
  simp only [zfill, List.length_append, List.length_replicate]
  omega

theorem zfill2_all_digit (n : Nat) : (zfill 2 (natToStr n)).all isDigitC = true := by
  simp only [zfill, List.all_append, Bool.and_eq_true]
  constructor
  · rw [List.all_eq_true]
    intro c hc
    rw [List.eq_of_mem_replicate hc]
    decide
  · exact natToStr_all_digit n

theorem zfill2_digits (n : Nat) : digitsToNat (zfill 2 (natToStr n)) = n := by
  rw [zfill, digitsToNat_replicate_zero, natToStr_roundtrip]

theorem formatDate_valid (y m d : Nat) (hv : validDate y m d = true)
    (hy : 1000 ≤ y) : validISO (formatDate ⟨y, m, d⟩) = true := by
  have hvd := hv
  unfold validDate at hvd
  simp only [Bool.and_eq_true, decide_eq_true_eq] at hvd
  obtain ⟨⟨⟨⟨⟨h1y, h2y⟩, h1m⟩, h2m⟩, h1d⟩, h2d⟩ := hvd
  have hdm : daysInMonth y m ≤ 31 := by
    unfold daysInMonth
    split
    · split <;> omega
    · split <;> omega
  apply validISO_build
  · exact natToStr_length_four y hy h2y
  · exact zfill2_length m (by omega)
  · exact zfill2_length d (by omega)
  · exact natToStr_all_digit y
  · exact zfill2_all_digit m
  · exact zfill2_all_digit d
  · rw [natToStr_roundtrip, zfill2_digits, zfill2_digits]
    exact hv

theorem parseYYMMDD_validDate (cs : Str) (dt : PyDate)
    (h : parseYYMMDD cs = some dt) :
    validDate dt.year dt.month dt.day = true ∧ 1900 ≤ dt.year
    ∧ cs.length = 6 ∧ cs.all isDigitC = true := by
  unfold parseYYMMDD at h
  by_cases hc : (cs.length == 6 && cs.all isDigitC) = true
  · rw [if_pos hc] at h
    simp only [Bool.and_eq_true, beq_iff_eq] at hc
    by_cases hv : validDate (if digitsToNat (cs.take 2) ≤ 68 then 2000 + digitsToNat (cs.take 2)
        else 1900 + digitsToNat (cs.take 2)) (digitsToNat ((cs.drop 2).take 2))
        (digitsToNat (cs.drop 4)) = true
    · rw [if_pos hv] at h
      obtain rfl := Option.some.inj h
      refine ⟨hv, ?_, hc.1, hc.2⟩
      dsimp only
      split <;> omega
    · rw [if_neg hv] at h
      exact absurd h (by simp)
  · rw [if_neg hc] at h
    exact absurd h (by simp)

theorem parseMMDDYY_validDate (cs : Str) (dt : PyDate)
    (h : parseMMDDYY cs = some dt) :
    validDate dt.year dt.month dt.day = true ∧ 1900 ≤ dt.year := by
  unfold parseMMDDYY at h
  by_cases hc : (cs.length == 6 && cs.all isDigitC) = true
  · rw [if_pos hc] at h
    by_cases hv : validDate (if digitsToNat (cs.drop 4) ≤ 68 then 2000 + digitsToNat (cs.drop 4)
        else 1900 + digitsToNat (cs.drop 4)) (digitsToNat (cs.take 2))
        (digitsToNat ((cs.drop 2).take 2)) = true
    · rw [if_pos hv] at h
      obtain rfl := Option.some.inj h
      refine ⟨hv, ?_⟩
      dsimp only
      split <;> omega
    · rw [if_neg hv] at h
      exact absurd h (by simp)
  · rw [if_neg hc] at h
    exact absurd h (by simp)

theorem all_digit_no_underscore (cs : Str) (h : cs.all isDigitC = true) :
    cs.contains '_' = false := by
  rw [List.all_eq_true] at h
  by_contra hc
  rw [Bool.not_eq_false, List.contains_eq_any_beq, List.any_eq_true] at hc
  obtain ⟨c, hm, hb⟩ := hc
  have := h c hm
  rw [beq_iff_eq] at hb
  subst hb
  simp [isDigitC] at this

/-- The six-digit branch of the shared normalisation: `%y%m%d` is tried first
and `%m%d%y` only on `ValueError`, and the result is reformatted. -/
theorem normCore_sixdigit (cs : Str) (h6 : cs.length = 6)
    (hd : cs.all isDigitC = true) :
    normCore cs =
      (match parseYYMMDD cs with
       | some dt => some (formatDate dt)
       | none =>
         match parseMMDDYY cs with
         | some dt => some (formatDate dt)
         | none => none) := by
  unfold normCore
  rw [if_neg, if_neg, if_pos]
  · simp [h6]
  · simp [h6]
  · intro hc
    rw [all_digit_no_underscore cs hd] at hc
    exact absurd hc (by simp)

theorem normalizeDateStr_yymmdd (cs : Str) (dt : PyDate)
    (h : parseYYMMDD cs = some dt) :
    normalizeDateStr cs = some (formatDate dt) := by
  obtain ⟨hv, hy, h6, hd⟩ := parseYYMMDD_validDate cs dt h
  unfold normalizeDateStr
  rw [normCore_sixdigit cs h6 hd, h]
  have : validISO (formatDate dt) = true :=
    formatDate_valid dt.year dt.month dt.day hv (by omega)
  simp [this]

theorem normalizeDateStr_mmddyy (cs : Str) (dt : PyDate)
    (h6 : cs.length = 6) (hd : cs.all isDigitC = true)
    (h1 : parseYYMMDD cs = none) (h : parseMMDDYY cs = some dt) :
    normalizeDateStr cs = some (formatDate dt) := by
  obtain ⟨hv, hy⟩ := parseMMDDYY_validDate cs dt h
  unfold normalizeDateStr
  rw [normCore_sixdigit cs h6 hd, h1, h]
  have : validISO (formatDate dt) = true :=
    formatDate_valid dt.year dt.month dt.day hv (by omega)
  simp [this]

theorem normalizeDateStr_sixdigit_none (cs : Str)
    (h6 : cs.length = 6) (hd : cs.all isDigitC = true)
    (h1 : parseYYMMDD cs = none) (h2 : parseMMDDYY cs = none) :
    normalizeDateStr cs = none := by
  unfold normalizeDateStr
  rw [normCore_sixdigit cs h6 hd, h1, h2]

theorem zip_replicate_all (f : Char → Bool) : ∀ (l : Str) (n : Nat), l.length = n →
    ((List.zip (List.replicate n f) l).all fun pc => pc.1 pc.2) = l.all f := by
  intro l
  induction l with
  | nil => intro n h; subst h; simp
  | cons c t ih =>
    intro n h
    cases n with
    | zero => simp at h
    | succ m =>
      simp only [List.replicate_succ, List.zip_cons_cons, List.all_cons]
      rw [ih m (by simpa using h)]

/-- When the whole string is one exact pattern match, `re.search` finds it
at position zero. -/
theorem reSearch_exact (p : Pat) (cs : Str)
    (hlen : cs.length = p.length)
    (hall : ((List.zip p cs).all fun pc => pc.1 pc.2) = true) :
    reSearch p cs = some cs := by
  have htake : cs.take p.length = cs := by rw [← hlen, List.take_length]
  have hmatch : patMatchesAt p cs 0 = true := by
    unfold patMatchesAt
    simp [htake, hall, hlen]
  unfold reSearch
  rw [List.range_succ_eq_map, List.find?_cons_of_pos _ hmatch]
  simp [htake]

/-! ### The `MemoriesHTML` parser

`html.parser.HTMLParser` tokenises the document and invokes the callbacks
`handle_starttag`, `handle_endtag` and `handle_data`; the token stream is
modelled as a list of events and the callbacks as state transformers.
Attribute values are modelled as strings (the exports this tool consumes
always carry explicit attribute values). -/

/-- One tokeniser callback. -/
inductive HtmlEvent where
  | startTag (tag : Str) (attrs : List (Str × Str))
  | endTag (tag : Str)
  | dataEv (s : Str)
deriving DecidableEq

/-- One entry of `self.items`: `{"src": ..., "date": ...}`. -/
structure Item where
  src : Str
  date : Str
deriving DecidableEq

/-- The parser's mutable state (`items`, `_in_textline`, `_last_media_index`). -/
structure PState where
  items : List Item
  inTextline : Bool
  lastMediaIndex : Option Nat
deriving DecidableEq

/-- `dict(attrs).get(key)`: with duplicate keys the last binding wins. -/
def dictGet (attrs : List (Str × Str)) (k : Str) : Option Str :=
  match attrs.reverse.find? (fun p => p.1 == k) with
  | some p => some p.2
  | none => none

/-- Substring test at one offset. -/
def substrAt (pat cs : Str) (i : Nat) : Bool :=
  (cs.drop i).take pat.length == pat

/-- Model of Python `pat in cs` for strings (substring containment). -/
def containsSub (cs pat : Str) : Bool :=
  (List.range (cs.length + 1)).any (fun i => substrAt pat cs i)

/-- `MemoriesHTML.handle_starttag` (identical logic in both variants): an
`img`/`video` tag with a non-empty `src` opens a new item and marks it
current; a `div` whose `class` contains `text-line` enters capture mode. -/
def handleStarttag (st : PState) (tag : Str) (attrs : List (Str × Str)) : PState :=
  let t := lowerStr tag
  if t == strL "img" || t == strL "video" then
    let src := (dictGet attrs (strL "src")).getD []
    if src.isEmpty then st
    else { st with items := st.items ++ [⟨src, []⟩],
                   lastMediaIndex := some st.items.length }
  else if t == strL "div" then
    match dictGet attrs (strL "class") with
    | some cls => if containsSub cls (strL "text-line") then { st with inTextline := true } else st
    | none => st
  else st

/-- `MemoriesHTML.handle_endtag`: any closing `div` leaves capture mode. -/
def handleEndtag (st : PState) (tag : Str) : PState :=
  if lowerStr tag == strL "div" then { st with inTextline := false } else st

/-- `MemoriesHTML.handle_data` of organize_memories_gui2.py: inside a
text-line, with a current media item, run the pattern loop and store the
first normalised date on the current item (unconditionally). -/
def handleData (st : PState) (data : Str) : PState :=
  if st.inTextline then
    match st.lastMediaIndex with
    | some k =>
      match tryPatterns DATE_PATTERNS data with
      | some ds =>
        match st.items.get? k with
        | some it => { st with items := st.items.set k { it with date := ds } }
        | none => st
      | none => st
    | none => st
  else st

def pstep (st : PState) : HtmlEvent → PState
  | .startTag t a => handleStarttag st t a
  | .endTag t => handleEndtag st t
  | .dataEv s => handleData st s

/-- `parser.feed(text)` for the gui2 variant, over the event stream. -/
def feed (es : List HtmlEvent) : PState :=
  es.foldl pstep ⟨[], false, none⟩

/-- `MemoriesHTML.handle_data` of organize_memories_gui.py: a bare
`DATE_RE.search` with no normalisation and no calendar validation. -/
def handleDataV1 (st : PState) (data : Str) : PState :=
  if st.inTextline then
    match st.lastMediaIndex with
    | some k =>
      match reSearch PAT_ISO data with
      | some m =>
        match st.items.get? k with
        | some it => { st with items := st.items.set k { it with date := m } }
        | none => st
      | none => st
    | none => st
  else st

def pstepV1 (st : PState) : HtmlEvent → PState
  | .startTag t a => handleStarttag st t a
  | .endTag t => handleEndtag st t
  | .dataEv s => handleDataV1 st s

/-- `parser.feed(text)` for the gui variant. -/
def feedV1 (es : List HtmlEvent) : PState :=
  es.foldl pstepV1 ⟨[], false, none⟩

/-- Parser invariant: the current-media index always points into `items`. -/
def IndexOk (st : PState) : Prop :=
  ∀ k, st.lastMediaIndex = some k → k < st.items.length

/-- Every callback either keeps the item count and the current index, or
appends one item and points the index at it. -/
theorem pstep_shape (st : PState) (e : HtmlEvent) :
    ((pstep st e).items.length = st.items.length
      ∧ (pstep st e).lastMediaIndex = st.lastMediaIndex)
    ∨ ((pstep st e).items.length = st.items.length + 1
      ∧ (pstep st e).lastMediaIndex = some st.items.length) := by
  cases e <;> simp only [pstep, handleStarttag, handleEndtag, handleData] <;>
    repeat' split
  all_goals first
    | (refine Or.inl ⟨?_, ?_⟩ <;> simp) <;> done
    | (refine Or.inr ⟨?_, ?_⟩ <;> simp) <;> done

theorem pstepV1_shape (st : PState) (e : HtmlEvent) :
    ((pstepV1 st e).items.length = st.items.length
      ∧ (pstepV1 st e).lastMediaIndex = st.lastMediaIndex)
    ∨ ((pstepV1 st e).items.length = st.items.length + 1
      ∧ (pstepV1 st e).lastMediaIndex = some st.items.length) := by
  cases e <;> simp only [pstepV1, handleStarttag, handleEndtag, handleDataV1] <;>
    repeat' split
  all_goals first
    | (refine Or.inl ⟨?_, ?_⟩ <;> simp) <;> done
    | (refine Or.inr ⟨?_, ?_⟩ <;> simp) <;> done

theorem indexOk_pstep (st : PState) (e : HtmlEvent) (h : IndexOk st) :
    IndexOk (pstep st e) := by
  intro k hk
  rcases pstep_shape st e with ⟨hlen, hidx⟩ | ⟨hlen, hidx⟩
  · rw [hidx] at hk
    rw [hlen]
    exact h k hk
  · rw [hidx] at hk
    obtain rfl := Option.some.inj hk
    omega

theorem indexOk_pstepV1 (st : PState) (e : HtmlEvent) (h : IndexOk st) :
    IndexOk (pstepV1 st e) := by
  intro k hk
  rcases pstepV1_shape st e with ⟨hlen, hidx⟩ | ⟨hlen, hidx⟩
  · rw [hidx] at hk
    rw [hlen]
    exact h k hk
  · rw [hidx] at hk
    obtain rfl := Option.some.inj hk
    omega

theorem indexOk_foldl (es : List HtmlEvent) :
    ∀ (st : PState), IndexOk st → IndexOk (es.foldl pstep st) := by
  induction es with
  | nil => intro st h; simpa using h
  | cons e t ih =>
    intro st h
    simp only [List.foldl_cons]
    exact ih (pstep st e) (indexOk_pstep st e h)

theorem indexOk_feed (es : List HtmlEvent) : IndexOk (feed es) := by
  unfold feed
  exact indexOk_foldl es _ (by intro k hk; exact absurd hk (by simp))

theorem indexOk_foldlV1 (es : List HtmlEvent) :
    ∀ (st : PState), IndexOk st → IndexOk (es.foldl pstepV1 st) := by
  induction es with
  | nil => intro st h; simpa using h
  | cons e t ih =>
    intro st h
    simp only [List.foldl_cons]
    exact ih (pstepV1 st e) (indexOk_pstepV1 st e h)

theorem indexOk_feedV1 (es : List HtmlEvent) : IndexOk (feedV1 es) := by
  unfold feedV1
  exact indexOk_foldlV1 es _ (by intro k hk; exact absurd hk (by simp))

/-! ### The worker (`Worker.run`)

Filesystem facts are abstracted per item: whether the resolved source path or
its basename-only retry exists, the formatted modification time of the chosen
source file, and the outcome of `shutil.copy2`.  The output tree is the list
of destination paths that currently exist (relative to the output root); the
collision loop consults and extends it. -/

/-- Index of the last '.' in a name, `str.rfind`-style. -/
def lastDotIdx (cs : Str) : Option Nat :=
  match cs.reverse.findIdx? (fun c => c == '.') with
  | some r => some (cs.length - 1 - r)
  | none => none

/-- `pathlib` stem/suffix split: the suffix starts at the last dot provided
that dot is neither the first nor the last character of the name. -/
def pySplitExt (name : Str) : Str × Str :=
  match lastDotIdx name with
  | some i => if 0 < i ∧ i + 1 < name.length then (name.take i, name.drop i) else (name, [])
  | none => (name, [])

/-- The candidate `tgt_dir / f"{stem}_{sfx}{suffix}"` of the collision loop. -/
def candName (dir stem ext : Str) (n : Nat) : Str :=
  dir ++ (stem ++ '_' :: (natToStr n ++ ext))

/-- The `while target.exists()` loop, driven by fuel; with fuel exceeding the
number of existing files it always reaches a free name. -/
def searchFree (fs : List Str) (dir stem ext : Str) : Nat → Nat → Str
  | 0, n => candName dir stem ext n
  | fuel + 1, n =>
    if candName dir stem ext n ∈ fs then searchFree fs dir stem ext fuel (n + 1)
    else candName dir stem ext n

/-- Destination choice of Worker.run lines 205-211: start from
`tgt_dir/base_name` and append `_1`, `_2`, ... before the extension until the
name is free. -/
def resolveTarget (fs : List Str) (dir baseName : Str) : Str :=
  if dir ++ baseName ∈ fs then
    searchFree fs dir (pySplitExt baseName).1 (pySplitExt baseName).2 (fs.length + 1) 1
  else dir ++ baseName

theorem candName_injective (dir stem ext : Str) (a b : Nat)
    (h : candName dir stem ext a = candName dir stem ext b) : a = b := by
  unfold candName at h
  have h1 := List.append_cancel_left h
  have h2 := List.append_cancel_left h1
  have h3 := List.cons.inj h2
  have h4 := h3.2
  have hlen : (natToStr a).length = (natToStr b).length := by
    have := congrArg List.length h4
    simp only [List.length_append] at this
    omega
  have := (List.append_inj h4 hlen).1
  exact natToStr_injective a b this

theorem searchFree_not_mem (fs : List Str) (dir stem ext : Str) :
    ∀ (fuel n : Nat), (¬ ∀ j, j < fuel → candName dir stem ext (n + j) ∈ fs) →
    searchFree fs dir stem ext fuel n ∉ fs := by
  intro fuel
  induction fuel with
  | zero =>
    intro n h
    exact absurd (by intro j hj; omega) h
  | succ f ih =>
    intro n h
    unfold searchFree
    by_cases hc : candName dir stem ext n ∈ fs
    · rw [if_pos hc]
      apply ih
      intro hall
      apply h
      intro j hj
      cases j with
      | zero => simpa using hc
      | succ i =>
        have := hall i (by omega)
        have he : n + (i + 1) = n + 1 + i := by omega
        rw [he]
        exact this
    · rw [if_neg hc]
      exact hc

theorem candName_pigeonhole (fs : List Str) (dir stem ext : Str) (n : Nat) :
    ¬ ∀ j, j < fs.length + 1 → candName dir stem ext (n + j) ∈ fs := by
  intro hall
  set l := (List.range (fs.length + 1)).map (fun j => candName dir stem ext (n + j)) with hl
  have hnd : l.Nodup := by
    apply List.Nodup.map _ (List.nodup_range _)
    intro a b hab
    have := candName_injective dir stem ext (n + a) (n + b) hab
    omega
  have hsub : l ⊆ fs := by
    intro x hx
    rw [hl, List.mem_map] at hx
    obtain ⟨j, hj, rfl⟩ := hx
    exact hall j (List.mem_range.1 hj)
  have := (hnd.subperm hsub).length_le
  simp [hl] at this

theorem resolveTarget_not_mem (fs : List Str) (dir baseName : Str) :
    resolveTarget fs dir baseName ∉ fs := by
  unfold resolveTarget
  by_cases hc : dir ++ baseName ∈ fs
  · rw [if_pos hc]
    exact searchFree_not_mem fs dir _ _ (fs.length + 1) 1
      (candName_pigeonhole fs dir _ _ 1)
  · rw [if_neg hc]
    exact hc

/-- Python's `or` chain on strings: the empty string is falsy. -/
def pyOr (a b : Str) : Str := if a.isEmpty then b else a

/-- Lines 190-198 of organize_memories_gui2.py: the `or` chain selecting the
effective date, followed by the defensive re-validation that falls back to
the filesystem timestamp. -/
def resolveDate (hint name mtime : Str) : Str :=
  let cand := pyOr (pyOr hint (date_from_name name)) mtime
  if validISO cand then cand else mtime

/-- `date_from_name` of organize_memories_gui.py: a bare ISO-pattern search
with no calendar validation. -/
def date_from_name_v1 (name : Str) : Str :=
  (reSearch PAT_ISO name).getD []

/-- Line 127 of organize_memories_gui.py: the same `or` chain with no
re-validation step. -/
def resolveDateV1 (hint name mtime : Str) : Str :=
  pyOr (pyOr hint (date_from_name_v1 name)) mtime

/-- Outcome of the `shutil.copy2` call for one item. -/
inductive CopyRes where
  | okRes
  | ioErrRes
  | otherErrRes
deriving DecidableEq

/-- Abstracted filesystem facts for one item. -/
structure ItemEnv where
  srcExists : Str → Bool
  mtimeDate : Str
  copyRes : CopyRes

/-- Error classes reported through the `("error", ...)` queue messages. -/
inductive ErrKind where
  | readFailK
  | noDecodeK
  | noMediaK
deriving DecidableEq

/-- Progress-message classes (`MISSING`, `OK`, `IO ERROR`, `ERROR`). -/
inductive PKind where
  | missingK
  | okK
  | ioErrK
  | errK
deriving DecidableEq

/-- Typed events on the worker-to-UI queue. -/
inductive Ev where
  | meta (total : Nat)
  | progress (i : Nat) (k : PKind)
  | logCancel (ok fail : Nat)
  | doneEv (ok fail : Nat)
  | errorEv (k : ErrKind)
deriving DecidableEq

/-- Loop state: destination tree, counters, emitted events in order. -/
structure LoopState where
  fs : List Str
  ok : Nat
  fail : Nat
  events : List Ev
deriving DecidableEq

/-- The body of the `for i, it in enumerate(items, 1)` loop of
organize_memories_gui2.py (lines 173-224), for one item, after the
cancellation poll. -/
def stepItem (total interval i : Nat) (env : ItemEnv) (it : Item)
    (s : LoopState) : LoopState :=
  let rel := normalize_src it.src
  let name := pathName rel
  let present := env.srcExists rel || env.srcExists name
  if !present then
    { s with fail := s.fail + 1,
             events := s.events ++
               (if i % interval == 0 || i == total || i == 1 then
                  [Ev.progress i PKind.missingK] else []) }
  else
    let date := resolveDate it.date name env.mtimeDate
    let dir := date.take 4 ++ '/' :: (date.take 7 ++ ['/'])
    let baseName := date ++ '_' :: name
    let target := resolveTarget s.fs dir baseName
    match env.copyRes with
    | CopyRes.okRes =>
      { s with ok := s.ok + 1, fs := s.fs ++ [target],
               events := s.events ++
                 (if i % interval == 0 || i == total || i == 1 then
                    [Ev.progress i PKind.okK] else []) }
    | CopyRes.ioErrRes =>
      { s with fail := s.fail + 1,
               events := s.events ++ [Ev.progress i PKind.ioErrK] }
    | CopyRes.otherErrRes =>
      { s with fail := s.fail + 1,
               events := s.events ++ [Ev.progress i PKind.errK] }

/-- The item loop with the cancellation poll removed (what a run does when
the flag never gets set). -/
def processSeq (total interval : Nat) (envs : Nat → ItemEnv) :
    List Item → Nat → LoopState → LoopState
  | [], _, s => s
  | it :: rest, i, s =>
    processSeq total interval envs rest (i + 1) (stepItem total interval i (envs i) it s)

/-- The item loop of Worker.run including the per-item cancellation poll;
the boolean reports whether the run was cancelled. -/
def runItems (total interval : Nat) (cancel : Nat → Bool) (envs : Nat → ItemEnv) :
    List Item → Nat → LoopState → LoopState × Bool
  | [], _, s => (s, false)
  | it :: rest, i, s =>
    if cancel i then
      ({ s with events := s.events ++ [Ev.logCancel s.ok s.fail] }, true)
    else
      runItems total interval cancel envs rest (i + 1) (stepItem total interval i (envs i) it s)

/-- Result of one `read_text(encoding=...)` attempt: a successful decode is
abstracted directly to the token stream of the decoded text. -/
inductive ReadRes where
  | okRead (evs : List HtmlEvent)
  | decodeFail
  | readFail

/-- The encoding loop of Worker.run lines 136-151: `UnicodeDecodeError` means
try the next encoding, any other exception is an immediate error, and
exhausting the list is an error. -/
def readLoop (att : Str → ReadRes) : List Str → Except ErrKind (List HtmlEvent)
  | [] => Except.error ErrKind.noDecodeK
  | e :: rest =>
    match att e with
    | ReadRes.okRead evs => Except.ok evs
    | ReadRes.decodeFail => readLoop att rest
    | ReadRes.readFail => Except.error ErrKind.readFailK

/-- `encodings = ['utf-8', 'latin-1', 'cp1252', 'iso-8859-1']`. -/
def ENCODINGS : List Str :=
  [strL "utf-8", strL "latin-1", strL "cp1252", strL "iso-8859-1"]

/-- Observable result of a whole run. -/
structure RunOut where
  events : List Ev
  fs : List Str
  okTotal : Nat
  failTotal : Nat
  cancelled : Bool
deriving DecidableEq

/-- `Worker.run` of organize_memories_gui2.py end to end: read the document,
parse it, bail out on the two fatal conditions, otherwise run the item loop
and emit the terminal event. -/
def workerRun (att : Str → ReadRes) (cancel : Nat → Bool) (envs : Nat → ItemEnv)
    (fs0 : List Str) : RunOut :=
  match readLoop att ENCODINGS with
  | Except.error k => ⟨[Ev.errorEv k], fs0, 0, 0, false⟩
  | Except.ok evs =>
    let items := (feed evs).items
    if items.isEmpty then ⟨[Ev.errorEv ErrKind.noMediaK], fs0, 0, 0, false⟩
    else
      let total := items.length
      let interval := max 1 (total / 100)
      let res := runItems total interval cancel envs items 1 ⟨fs0, 0, 0, [Ev.meta total]⟩
      if res.2 then ⟨res.1.events, res.1.fs, res.1.ok, res.1.fail, true⟩
      else ⟨res.1.events ++ [Ev.doneEv res.1.ok res.1.fail], res.1.fs, res.1.ok, res.1.fail, false⟩

theorem stepItem_count (total interval i : Nat) (env : ItemEnv) (it : Item)
    (s : LoopState) :
    (stepItem total interval i env it s).ok + (stepItem total interval i env it s).fail
      = s.ok + s.fail + 1 := by
  simp only [stepItem]
  repeat' split
  all_goals simp
  all_goals omega

theorem processSeq_count (total interval : Nat) (envs : Nat → ItemEnv) :
    ∀ (items : List Item) (i : Nat) (s : LoopState),
    (processSeq total interval envs items i s).ok
      + (processSeq total interval envs items i s).fail
      = s.ok + s.fail + items.length := by
  intro items
  induction items with
  | nil => intro i s; simp [processSeq]
  | cons it rest ih =>
    intro i s
    unfold processSeq
    rw [ih]
    rw [stepItem_count]
    simp
    omega

theorem stepItem_fs (total interval i : Nat) (env : ItemEnv) (it : Item)
    (s : LoopState) :
    ∃ ext, (stepItem total interval i env it s).fs = s.fs ++ ext
      ∧ ext.Nodup ∧ ∀ t, t ∈ ext → t ∉ s.fs := by
  simp only [stepItem]
  split
  · exact ⟨[], by simp, by simp, by simp⟩
  · cases env.copyRes with
    | okRes =>
      refine ⟨[resolveTarget s.fs
          ((resolveDate it.date (pathName (normalize_src it.src)) env.mtimeDate).take 4
            ++ '/' :: ((resolveDate it.date (pathName (normalize_src it.src)) env.mtimeDate).take 7 ++ ['/']))
          (resolveDate it.date (pathName (normalize_src it.src)) env.mtimeDate
            ++ '_' :: pathName (normalize_src it.src))], by simp, List.nodup_singleton _, ?_⟩
      intro t ht
      rw [List.mem_singleton] at ht
      subst ht
      exact resolveTarget_not_mem _ _ _
    | ioErrRes => exact ⟨[], by simp, by simp, by simp⟩
    | otherErrRes => exact ⟨[], by simp, by simp, by simp⟩

theorem processSeq_fs (total interval : Nat) (envs : Nat → ItemEnv) :
    ∀ (items : List Item) (i : Nat) (s : LoopState),
    ∃ new, (processSeq total interval envs items i s).fs = s.fs ++ new
      ∧ new.Nodup ∧ ∀ t, t ∈ new → t ∉ s.fs := by
  intro items
  induction items with
  | nil => intro i s; exact ⟨[], by simp [processSeq]⟩
  | cons it rest ih =>
    intro i s
    unfold processSeq
    obtain ⟨ext, he, hn, hd⟩ := stepItem_fs total interval i (envs i) it s
    obtain ⟨new, he2, hn2, hd2⟩ := ih (i + 1) (stepItem total interval i (envs i) it s)
    refine ⟨ext ++ new, ?_, ?_, ?_⟩
    · rw [he2, he, List.append_assoc]
    · rw [List.nodup_append]
      refine ⟨hn, hn2, ?_⟩
      intro t ht ht2
      exact hd2 t ht2 (by rw [he]; exact List.mem_append_right _ ht)
    · intro t ht hmem
      rcases List.mem_append.1 ht with h1 | h2
      · exact hd t h1 hmem
      · exact hd2 t h2 (by rw [he]; exact List.mem_append_left _ hmem)

theorem runItems_no_cancel (total interval : Nat) (cancel : Nat → Bool)
    (envs : Nat → ItemEnv) (hcan : ∀ j, cancel j = false) :
    ∀ (items : List Item) (i : Nat) (s : LoopState),
    runItems total interval cancel envs items i s
      = (processSeq total interval envs items i s, false) := by
  intro items
  induction items with
  | nil => intro i s; rfl
  | cons it rest ih =>
    intro i s
    unfold runItems processSeq
    rw [hcan i]
    simp only [Bool.false_eq_true, if_false]
    exact ih (i + 1) _

theorem runItems_cancel_at (total interval : Nat) (cancel : Nat → Bool)
    (envs : Nat → ItemEnv) :
    ∀ (k : Nat) (items : List Item) (i : Nat) (s : LoopState),
    k < items.length → (∀ j, j < k → cancel (i + j) = false) →
    cancel (i + k) = true →
    runItems total interval cancel envs items i s
      = ({ processSeq total interval envs (items.take k) i s with
           events := (processSeq total interval envs (items.take k) i s).events
             ++ [Ev.logCancel (processSeq total interval envs (items.take k) i s).ok
                   (processSeq total interval envs (items.take k) i s).fail] }, true) := by
  intro k
  induction k with
  | zero =>
    intro items i s hlen hbefore hat
    cases items with
    | nil => simp at hlen
    | cons it rest =>
      rw [Nat.add_zero] at hat
      unfold runItems
      rw [hat]
      simp [processSeq]
  | succ k ih =>
    intro items i s hlen hbefore hat
    cases items with
    | nil => simp at hlen
    | cons it rest =>
      have hc0 : cancel i = false := by
        have := hbefore 0 (by omega)
        simpa using this
      unfold runItems
      rw [hc0]
      simp only [Bool.false_eq_true, if_false, List.take_succ_cons]
      have hbefore2 : ∀ j, j < k → cancel (i + 1 + j) = false := by
        intro j hj
        have := hbefore (j + 1) (by omega)
        have he : i + (j + 1) = i + 1 + j := by omega
        rw [he] at this
        exact this
      have hat2 : cancel (i + 1 + k) = true := by
        have he : i + (k + 1) = i + 1 + k := by omega
        rw [he] at hat
        exact hat
      have hlen2 : k < rest.length := by
        simp at hlen
        omega
      rw [ih rest (i + 1) (stepItem total interval i (envs i) it s) hlen2 hbefore2 hat2]
      rfl

/-- Recogniser for the `("error", ...)` events. -/
def isErrorEv : Ev → Bool
  | Ev.errorEv _ => true
  | _ => false

theorem stepItem_no_error (total interval i : Nat) (env : ItemEnv) (it : Item)
    (s : LoopState) :
    (stepItem total interval i env it s).events.countP isErrorEv
      = s.events.countP isErrorEv
    ∧ ∃ suf, (stepItem total interval i env it s).events = s.events ++ suf := by
  simp only [stepItem]
  split
  · constructor
    · split <;> simp [List.countP_append, isErrorEv, List.countP_cons]
    · exact ⟨_, rfl⟩
  · cases env.copyRes with
    | okRes =>
      constructor
      · split <;> simp [List.countP_append, isErrorEv, List.countP_cons]
      · exact ⟨_, rfl⟩
    | ioErrRes =>
      constructor
      · simp [List.countP_append, isErrorEv, List.countP_cons]
      · exact ⟨_, rfl⟩
    | otherErrRes =>
      constructor
      · simp [List.countP_append, isErrorEv, List.countP_cons]
      · exact ⟨_, rfl⟩

theorem processSeq_no_error (total interval : Nat) (envs : Nat → ItemEnv) :
    ∀ (items : List Item) (i : Nat) (s : LoopState),
    (processSeq total interval envs items i s).events.countP isErrorEv
      = s.events.countP isErrorEv
    ∧ ∃ suf, (processSeq total interval envs items i s).events = s.events ++ suf := by
  intro items
  induction items with
  | nil => intro i s; exact ⟨rfl, [], by simp [processSeq]⟩
  | cons it rest ih =>
    intro i s
    unfold processSeq
    obtain ⟨hc, suf, hs⟩ := stepItem_no_error total interval i (envs i) it s
    obtain ⟨hc2, suf2, hs2⟩ := ih (i + 1) (stepItem total interval i (envs i) it s)
    refine ⟨by rw [hc2, hc], suf ++ suf2, ?_⟩
    rw [hs2, hs, List.append_assoc]

theorem runItems_no_error (total interval : Nat) (cancel : Nat → Bool)
    (envs : Nat → ItemEnv) :
    ∀ (items : List Item) (i : Nat) (s : LoopState),
    (runItems total interval cancel envs items i s).1.events.countP isErrorEv
      = s.events.countP isErrorEv
    ∧ ∃ suf, (runItems total interval cancel envs items i s).1.events = s.events ++ suf := by
  intro items
  induction items with
  | nil => intro i s; exact ⟨rfl, [], by simp [runItems]⟩
  | cons it rest ih =>
    intro i s
    unfold runItems
    by_cases hc : cancel i = true
    · rw [if_pos hc]
      refine ⟨?_, [Ev.logCancel s.ok s.fail], rfl⟩
      simp [List.countP_append, isErrorEv, List.countP_cons]
    · rw [if_neg hc]
      obtain ⟨h1, suf, hs⟩ := stepItem_no_error total interval i (envs i) it s
      obtain ⟨h2, suf2, hs2⟩ := ih (i + 1) (stepItem total interval i (envs i) it s)
      refine ⟨by rw [h2, h1], suf ++ suf2, ?_⟩
      rw [hs2, hs, List.append_assoc]

/-! ### Claim theorems -/

/-- C1: For every run that is not cancelled, each extracted MediaReference
yields exactly one outcome (Success, Missing or Failure), so the final
succeeded+failed totals equal the number of MediaReferences extracted from
the HTML document. -/
theorem C1_outcome_totals (att : Str → ReadRes) (envs : Nat → ItemEnv)
    (fs0 : List Str) (evs : List HtmlEvent)
    (hRead : readLoop att ENCODINGS = Except.ok evs) :
    (workerRun att (fun _ => false) envs fs0).okTotal
      + (workerRun att (fun _ => false) envs fs0).failTotal
      = (feed evs).items.length := by
  simp only [workerRun, hRead]
  by_cases hempty : (feed evs).items.isEmpty
  · have hnil : (feed evs).items = [] := by simpa using hempty
    simp [hempty, hnil]
  · simp only [hempty, Bool.false_eq_true, if_false]
    rw [runItems_no_cancel _ _ _ _ (fun j => rfl)]
    simp only [if_false]
    have := processSeq_count (feed evs).items.length
      (max 1 ((feed evs).items.length / 100)) envs (feed evs).items 1
      ⟨fs0, 0, 0, [Ev.meta (feed evs).items.length]⟩
    simpa using this

def attOneItem : Str → ReadRes :=
  fun _ => ReadRes.okRead [HtmlEvent.startTag (strL "img") [(strL "src", strL "a.jpg")]]

def envTrivial : Nat → ItemEnv :=
  fun _ => ⟨fun _ => false, strL "2020-01-01", CopyRes.okRes⟩

theorem C1_outcome_totals_witness :
    (workerRun attOneItem (fun _ => false) envTrivial []).okTotal
      + (workerRun attOneItem (fun _ => false) envTrivial []).failTotal
      = (feed [HtmlEvent.startTag (strL "img") [(strL "src", strL "a.jpg")]]).items.length :=
  C1_outcome_totals attOneItem envTrivial []
    [HtmlEvent.startTag (strL "img") [(strL "src", strL "a.jpg")]] rfl

/-- C6: If the computed destination filename already exists, numeric
disambiguators `_1`, `_2`, ... are appended before the extension until a
free name is found, so no two successfully copied files of one run share a
destination path and no pre-existing file is overwritten. -/
theorem C6_no_overwrite :
    (∀ (fs : List Str) (dir b : Str), resolveTarget fs dir b ∉ fs)
    ∧ (∀ (total interval : Nat) (envs : Nat → ItemEnv) (items : List Item)
        (i : Nat) (fs0 : List Str) (ok0 fail0 : Nat) (evs0 : List Ev),
        ∃ new, (processSeq total interval envs items i ⟨fs0, ok0, fail0, evs0⟩).fs
            = fs0 ++ new
          ∧ new.Nodup ∧ ∀ t, t ∈ new → t ∉ fs0) := by
  constructor
  · exact resolveTarget_not_mem
  · intro total interval envs items i fs0 ok0 fail0 evs0
    simpa using processSeq_fs total interval envs items i ⟨fs0, ok0, fail0, evs0⟩

theorem C6_no_overwrite_witness :
    resolveTarget [strL "2023/2023-05/2023-05-01_a.jpg"] (strL "d/") (strL "x.jpg")
      ∉ [strL "2023/2023-05/2023-05-01_a.jpg"] :=
  C6_no_overwrite.1 _ _ _

theorem splitQFirst_no_q (cs : Str) : '?' ∉ splitQFirst cs := by
  induction cs with
  | nil => simp [splitQFirst]
  | cons c t ih =>
    unfold splitQFirst
    by_cases hc : (c == '?') = true
    · rw [if_pos hc]
      simp
    · rw [if_neg hc]
      intro hm
      rcases List.mem_cons.1 hm with h | h
      · rw [beq_iff_eq] at hc
        exact hc h.symm
      · exact ih h

theorem normalize_src_eq (src : Str) :
    normalize_src src
      = splitQFirst (if (pyStrip src).take 3 = strL ".//" then (pyStrip src).drop 3
          else if (pyStrip src).take 2 = strL "./" then (pyStrip src).drop 2
          else pyStrip src) := by
  unfold normalize_src
  by_cases h3 : (pyStrip src).take 3 = strL ".//"
  · simp [h3]
  · by_cases h2 : (pyStrip src).take 2 = strL "./"
    · simp [h3, h2]
    · simp [h3, h2]

/-- C7: The source reference is normalised (whitespace stripped, one leading
`./` or `.//` marker dropped, any `?` query suffix cut) and looked up; when
neither the normalised path nor its final component exists, the item is
recorded as Missing (fail incremented, nothing copied) and the loop goes on
with the remaining items. -/
theorem C7_missing_nonfatal (total interval i : Nat) (env : ItemEnv) (it : Item)
    (s : LoopState) (envs : Nat → ItemEnv) (rest : List Item)
    (h1 : env.srcExists (normalize_src it.src) = false)
    (h2 : env.srcExists (pathName (normalize_src it.src)) = false) :
    (stepItem total interval i env it s).fail = s.fail + 1
    ∧ (stepItem total interval i env it s).ok = s.ok
    ∧ (stepItem total interval i env it s).fs = s.fs
    ∧ processSeq total interval envs (it :: rest) i s
        = processSeq total interval envs rest (i + 1)
            (stepItem total interval i (envs i) it s)
    ∧ (∀ src : Str, normalize_src src
        = splitQFirst (if (pyStrip src).take 3 = strL ".//" then (pyStrip src).drop 3
            else if (pyStrip src).take 2 = strL "./" then (pyStrip src).drop 2
            else pyStrip src))
    ∧ (∀ src : Str, '?' ∉ normalize_src src) := by
  refine ⟨?_, ?_, ?_, rfl, normalize_src_eq, ?_⟩
  · simp [stepItem, h1, h2]
  · simp [stepItem, h1, h2]
  · simp [stepItem, h1, h2]
  · intro src
    rw [normalize_src_eq]
    exact splitQFirst_no_q _

theorem C7_missing_nonfatal_witness :
    (stepItem 1 1 1 ⟨fun _ => false, strL "2020-01-01", CopyRes.okRes⟩
        ⟨strL "./missing.jpg", []⟩ ⟨[], 0, 0, []⟩).fail = 0 + 1
    ∧ (stepItem 1 1 1 ⟨fun _ => false, strL "2020-01-01", CopyRes.okRes⟩
        ⟨strL "./missing.jpg", []⟩ ⟨[], 0, 0, []⟩).ok = 0
    ∧ (stepItem 1 1 1 ⟨fun _ => false, strL "2020-01-01", CopyRes.okRes⟩
        ⟨strL "./missing.jpg", []⟩ ⟨[], 0, 0, []⟩).fs = ([] : List Str)
    ∧ processSeq 1 1 envTrivial [⟨strL "./missing.jpg", []⟩] 1 ⟨[], 0, 0, []⟩
        = processSeq 1 1 envTrivial [] 2
            (stepItem 1 1 1 (envTrivial 1) ⟨strL "./missing.jpg", []⟩ ⟨[], 0, 0, []⟩)
    ∧ (∀ src : Str, normalize_src src
        = splitQFirst (if (pyStrip src).take 3 = strL ".//" then (pyStrip src).drop 3
            else if (pyStrip src).take 2 = strL "./" then (pyStrip src).drop 2
            else pyStrip src))
    ∧ (∀ src : Str, '?' ∉ normalize_src src) :=
  C7_missing_nonfatal 1 1 1 ⟨fun _ => false, strL "2020-01-01", CopyRes.okRes⟩
    ⟨strL "./missing.jpg", []⟩ ⟨[], 0, 0, []⟩ envTrivial [] rfl rfl

/-- C10: Text inside a text-line container seen before any media tag is
ignored without error: while the item list is empty the current-media index
is still unset, so the hint-attachment step is unreachable and `handle_data`
leaves the state unchanged (in both program variants). -/
theorem C10_data_before_media (es : List HtmlEvent) (d : Str)
    (h : (feed es).items = []) :
    (feed es).lastMediaIndex = none
    ∧ handleData (feed es) d = feed es
    ∧ ((feedV1 es).items = [] →
        (feedV1 es).lastMediaIndex = none ∧ handleDataV1 (feedV1 es) d = feedV1 es) := by
  have hidx : (feed es).lastMediaIndex = none := by
    cases hl : (feed es).lastMediaIndex with
    | none => rfl
    | some k =>
      have := indexOk_feed es k hl
      rw [h] at this
      simp at this
  refine ⟨hidx, ?_, ?_⟩
  · unfold handleData
    rw [hidx]
    split <;> rfl
  · intro hv
    have hidx2 : (feedV1 es).lastMediaIndex = none := by
      cases hl : (feedV1 es).lastMediaIndex with
      | none => rfl
      | some k =>
        have := indexOk_feedV1 es k hl
        rw [hv] at this
        simp at this
    refine ⟨hidx2, ?_⟩
    unfold handleDataV1
    rw [hidx2]
    split <;> rfl

theorem C10_data_before_media_witness :
    (feed [HtmlEvent.startTag (strL "div") [(strL "class", strL "text-line")],
        HtmlEvent.dataEv (strL "2023-05-01")]).lastMediaIndex = none
    ∧ handleData (feed [HtmlEvent.startTag (strL "div") [(strL "class", strL "text-line")],
        HtmlEvent.dataEv (strL "2023-05-01")]) (strL "2024-06-02")
      = feed [HtmlEvent.startTag (strL "div") [(strL "class", strL "text-line")],
          HtmlEvent.dataEv (strL "2023-05-01")]
    ∧ ((feedV1 [HtmlEvent.startTag (strL "div") [(strL "class", strL "text-line")],
          HtmlEvent.dataEv (strL "2023-05-01")]).items = [] →
        (feedV1 [HtmlEvent.startTag (strL "div") [(strL "class", strL "text-line")],
          HtmlEvent.dataEv (strL "2023-05-01")]).lastMediaIndex = none
        ∧ handleDataV1 (feedV1 [HtmlEvent.startTag (strL "div") [(strL "class", strL "text-line")],
            HtmlEvent.dataEv (strL "2023-05-01")]) (strL "2024-06-02")
          = feedV1 [HtmlEvent.startTag (strL "div") [(strL "class", strL "text-line")],
              HtmlEvent.dataEv (strL "2023-05-01")]) :=
  C10_data_before_media
    [HtmlEvent.startTag (strL "div") [(strL "class", strL "text-line")],
     HtmlEvent.dataEv (strL "2023-05-01")] (strL "2024-06-02") (by decide)

theorem handleEndtag_items (st : PState) (t : Str) :
    (handleEndtag st t).items = st.items := by
  unfold handleEndtag
  split <;> rfl

theorem handleStarttag_items (st : PState) (t : Str) (a : List (Str × Str)) :
    (handleStarttag st t a).items = st.items
    ∨ ∃ src, (handleStarttag st t a).items = st.items ++ [⟨src, []⟩] := by
  simp only [handleStarttag]
  repeat' split
  all_goals first
    | (left; rfl) <;> done
    | (right; exact ⟨_, rfl⟩) <;> done

theorem handleData_items (st : PState) (d : Str) :
    (handleData st d).items = st.items
    ∨ ∃ (k : Nat) (it : Item) (ds : Str), tryPatterns DATE_PATTERNS d = some ds
        ∧ (handleData st d).items = st.items.set k { it with date := ds } := by
  unfold handleData
  repeat' split
  all_goals first
    | (left; rfl) <;> done
    | (right; exact ⟨_, _, _, by assumption, rfl⟩) <;> done

/-- Extractor invariant behind the C2 hypothesis: every date hint a parsed
item carries is either absent or a validated canonical date. -/
theorem feed_hints_valid (es : List HtmlEvent) :
    ∀ it, it ∈ (feed es).items → it.date = [] ∨ validISO it.date = true := by
  unfold feed
  suffices hgen : ∀ (st : PState),
      (∀ it, it ∈ st.items → it.date = [] ∨ validISO it.date = true) →
      ∀ it, it ∈ (es.foldl pstep st).items → it.date = [] ∨ validISO it.date = true by
    apply hgen
    intro it hit
    exact absurd hit (by simp)
  induction es with
  | nil => intro st h; simpa using h
  | cons e t ih =>
    intro st h
    simp only [List.foldl_cons]
    apply ih
    intro it hit
    cases e with
    | startTag tg a =>
      simp only [pstep] at hit
      rcases handleStarttag_items st tg a with heq | ⟨src, heq⟩
      · rw [heq] at hit
        exact h it hit
      · rw [heq] at hit
        rcases List.mem_append.1 hit with hm | hm
        · exact h it hm
        · rw [List.mem_singleton] at hm
          rw [hm]
          left
          rfl
    | endTag tg =>
      simp only [pstep] at hit
      rw [handleEndtag_items] at hit
      exact h it hit
    | dataEv d =>
      simp only [pstep] at hit
      rcases handleData_items st d with heq | ⟨k, it2, ds, hds, heq⟩
      · rw [heq] at hit
        exact h it hit
      · rw [heq] at hit
        rcases List.mem_or_eq_of_mem_set hit with hm | hm
        · exact h it hm
        · rw [hm]
          right
          obtain ⟨p, m, _, _, hn⟩ := tryPatterns_some _ _ _ hds
          exact normalizeDateStr_valid m ds hn

/-- C2: For every processed item whose source exists, the effective date
follows the strict priority: the inline HTML hint when present (hints the
extractor produces are always valid or absent — `feed_hints_valid` — which
is the hypothesis here), otherwise the first valid date pattern found in the
filename, otherwise the file's formatted last-modified timestamp. -/
theorem C2_date_priority (hint name mtime : Str)
    (hHint : hint ≠ [] → validISO hint = true)
    (hM : validISO mtime = true) :
    resolveDate hint name mtime
      = (if hint ≠ [] then hint
         else if date_from_name name ≠ [] then date_from_name name else mtime) := by
  unfold resolveDate pyOr
  by_cases hh : hint.isEmpty
  · have hhe : hint = [] := by simpa using hh
    subst hhe
    simp only [List.isEmpty_nil, if_true, ne_eq, not_true_eq_false, if_false]
    by_cases hdf : (date_from_name name).isEmpty
    · have hde : date_from_name name = [] := by simpa using hdf
      simp [hde, hM]
    · have hde : date_from_name name ≠ [] := by simpa using hdf
      have hdv := date_from_name_valid name hde
      simp [hdf, hde, hdv]
  · have hhe : hint ≠ [] := by simpa using hh
    simp [hh, hhe, hHint hhe]

theorem C2_date_priority_witness :
    resolveDate (strL "2023-05-01") (strL "x.jpg") (strL "2020-01-01")
      = (if strL "2023-05-01" ≠ [] then strL "2023-05-01"
         else if date_from_name (strL "x.jpg") ≠ [] then date_from_name (strL "x.jpg")
         else strL "2020-01-01") :=
  C2_date_priority (strL "2023-05-01") (strL "x.jpg") (strL "2020-01-01")
    (fun _ => by decide) (by decide)

def c3Events : List HtmlEvent :=
  [HtmlEvent.startTag (strL "img") [(strL "src", strL "m.jpg")],
   HtmlEvent.startTag (strL "div") [(strL "class", strL "text-line")],
   HtmlEvent.dataEv (strL "2023-13-45")]

/-- C3 counterexample: organize_memories_gui.py (also cited by the claim)
performs no re-validation at the copy stage.  Its extractor attaches the
pattern-shaped but non-calendar hint `2023-13-45`, and its date chain passes
it straight to the destination computation instead of replacing it with the
modification-time fallback. -/
theorem C3_counterexample :
    (feedV1 c3Events).items = [⟨strL "m.jpg", strL "2023-13-45"⟩]
    ∧ resolveDateV1 (strL "2023-13-45") (strL "m.jpg") (strL "2020-01-01")
        = strL "2023-13-45"
    ∧ validISO (strL "2023-13-45") = false
    ∧ strL "2023-13-45" ≠ strL "2020-01-01" :=
  ⟨by decide, by decide, by decide, by decide⟩

/-- C3 amended: in organize_memories_gui2.py the date string reaching the
copy stage is re-validated; when the candidate fails validation the
modification-time fallback is used, and (given a valid fallback) the date
used for the destination always validates.  organize_memories_gui.py lacks
this re-check. -/
theorem C3_revalidation_gui2 (hint name mtime : Str)
    (hM : validISO mtime = true) :
    validISO (resolveDate hint name mtime) = true
    ∧ (validISO (pyOr (pyOr hint (date_from_name name)) mtime) = false →
        resolveDate hint name mtime = mtime)
    ∧ (validISO (pyOr (pyOr hint (date_from_name name)) mtime) = true →
        resolveDate hint name mtime = pyOr (pyOr hint (date_from_name name)) mtime) := by
  refine ⟨?_, ?_, ?_⟩
  · by_cases hv : validISO (pyOr (pyOr hint (date_from_name name)) mtime) = true
    · simp only [resolveDate]
      rw [if_pos hv]
      exact hv
    · simp only [resolveDate]
      rw [if_neg hv]
      exact hM
  · intro h
    simp only [resolveDate]
    rw [if_neg (by simp [h])]
  · intro h
    simp only [resolveDate]
    rw [if_pos h]

theorem C3_revalidation_gui2_witness :
    validISO (resolveDate (strL "2023-13-45") (strL "m.jpg") (strL "2020-01-01")) = true
    ∧ (validISO (pyOr (pyOr (strL "2023-13-45") (date_from_name (strL "m.jpg")))
          (strL "2020-01-01")) = false →
        resolveDate (strL "2023-13-45") (strL "m.jpg") (strL "2020-01-01")
          = strL "2020-01-01")
    ∧ (validISO (pyOr (pyOr (strL "2023-13-45") (date_from_name (strL "m.jpg")))
          (strL "2020-01-01")) = true →
        resolveDate (strL "2023-13-45") (strL "m.jpg") (strL "2020-01-01")
          = pyOr (pyOr (strL "2023-13-45") (date_from_name (strL "m.jpg")))
              (strL "2020-01-01")) :=
  C3_revalidation_gui2 (strL "2023-13-45") (strL "m.jpg") (strL "2020-01-01") (by decide)

def c4EventsA : List HtmlEvent :=
  [HtmlEvent.startTag (strL "img") [(strL "src", strL "a.jpg")],
   HtmlEvent.startTag (strL "div") [(strL "class", strL "text-line")],
   HtmlEvent.dataEv (strL "2023-05-01"),
   HtmlEvent.endTag (strL "div"),
   HtmlEvent.startTag (strL "div") [(strL "class", strL "text-line")],
   HtmlEvent.dataEv (strL "2024-06-02"),
   HtmlEvent.endTag (strL "div")]

def c4EventsB : List HtmlEvent :=
  [HtmlEvent.startTag (strL "img") [(strL "src", strL "a.jpg")],
   HtmlEvent.startTag (strL "div") [(strL "class", strL "text-line")],
   HtmlEvent.dataEv (strL "9999-99-99 20230501")]

/-- C4 counterexample: after the hint `2023-05-01` has been attached, a
second text-line replaces it with `2024-06-02` — the assignment is
unconditional, not guarded by "hint not already set"; and when the first
pattern matches `9999-99-99` (not a valid date) scanning does not stop: the
fourth pattern still attaches `2023-05-01`. -/
theorem C4_counterexample :
    (feed (c4EventsA.take 4)).items = [⟨strL "a.jpg", strL "2023-05-01"⟩]
    ∧ (feed c4EventsA).items = [⟨strL "a.jpg", strL "2024-06-02"⟩]
    ∧ (feed c4EventsB).items = [⟨strL "a.jpg", strL "2023-05-01"⟩] :=
  ⟨by decide, by decide, by decide⟩

/-- C4 amended: the patterns are tried in the listed priority order and the
first match that survives normalisation and calendar validation is attached
to the current MediaReference unconditionally — overwriting any earlier hint
(a later text-line does replace it) — after which the pattern scan for that
text block stops; a match that fails validation does not stop the scan. -/
theorem C4_first_valid_wins (st : PState) (data : Str) (k : Nat) (it : Item)
    (hT : st.inTextline = true) (hK : st.lastMediaIndex = some k)
    (hk : st.items.get? k = some it) :
    handleData st data =
      (match firstDateHint data with
       | some ds => { st with items := st.items.set k { it with date := ds } }
       | none => st) := by
  unfold handleData firstDateHint
  rw [← tryPatterns_eq_findSome]
  simp only [hT, if_true, hK, hk]

def c4Item : Item := ⟨strL "a.jpg", strL "2023-05-01"⟩

def c4State : PState := ⟨[c4Item], true, some 0⟩

theorem C4_first_valid_wins_witness :
    handleData c4State (strL "2024-06-02")
      = (match firstDateHint (strL "2024-06-02") with
         | some ds => { c4State with items := c4State.items.set 0 { c4Item with date := ds } }
         | none => c4State) :=
  C4_first_valid_wins c4State (strL "2024-06-02") 0 c4Item rfl rfl rfl

/-- C5: For a six-digit date string the `YYMMDD` interpretation is tried
first and `MMDDYY` only on failure, so whenever `YYMMDD` is a valid calendar
date it wins (even if `MMDDYY` is also valid); when only `MMDDYY` parses it
is used; when neither parses the hint is discarded — the normalisation
yields nothing and `handle_data` leaves the state unchanged. -/
theorem C5_sixdigit_priority (cs : Str) :
    (∀ dt, parseYYMMDD cs = some dt → normalizeDateStr cs = some (formatDate dt))
    ∧ (∀ dt, cs.length = 6 → cs.all isDigitC = true → parseYYMMDD cs = none →
        parseMMDDYY cs = some dt → normalizeDateStr cs = some (formatDate dt))
    ∧ (cs.length = 6 → cs.all isDigitC = true → parseYYMMDD cs = none →
        parseMMDDYY cs = none →
        normalizeDateStr cs = none ∧ ∀ st : PState, handleData st cs = st) := by
  refine ⟨?_, ?_, ?_⟩
  · intro dt h
    exact normalizeDateStr_yymmdd cs dt h
  · intro dt h6 hd h1 h
    exact normalizeDateStr_mmddyy cs dt h6 hd h1 h
  · intro h6 hd h1 h2
    have hnone := normalizeDateStr_sixdigit_none cs h6 hd h1 h2
    refine ⟨hnone, ?_⟩
    have hsearch : reSearch PAT_D6 cs = some cs := by
      apply reSearch_exact
      · rw [h6]
        rfl
      · have hl : cs.length = PAT_D6.length := by rw [h6]; rfl
        calc ((List.zip PAT_D6 cs).all fun pc => pc.1 pc.2)
            = cs.all isDigitC := zip_replicate_all isDigitC cs 6 h6
          _ = true := hd
    have hshort : ∀ p : Pat, p ∈ [PAT_ISO, PAT_MDY, PAT_UND, PAT_D8] →
        reSearch p cs = none := by
      intro p hp
      fin_cases hp <;> (apply reSearch_none_of_short; rw [h6]; decide)
    have htp : tryPatterns DATE_PATTERNS cs = none := by
      simp only [DATE_PATTERNS, tryPatterns, hshort PAT_ISO (by simp),
        hshort PAT_MDY (by simp), hshort PAT_UND (by simp),
        hshort PAT_D8 (by simp), hsearch, hnone]
    intro st
    unfold handleData
    rw [htp]
    by_cases hT : st.inTextline = true
    · rw [if_pos hT]
      cases st.lastMediaIndex <;> rfl
    · rw [if_neg hT]

theorem C5_sixdigit_priority_witness :
    parseYYMMDD (strL "010203") = some ⟨2001, 2, 3⟩
    ∧ parseMMDDYY (strL "010203") = some ⟨2003, 1, 2⟩
    ∧ normalizeDateStr (strL "010203") = some (formatDate ⟨2001, 2, 3⟩)
    ∧ normalizeDateStr (strL "123199") = some (formatDate ⟨1999, 12, 31⟩)
    ∧ normalizeDateStr (strL "991345") = none :=
  ⟨by decide, by decide,
   (C5_sixdigit_priority (strL "010203")).1 ⟨2001, 2, 3⟩ (by decide),
   (C5_sixdigit_priority (strL "123199")).2.1 ⟨1999, 12, 31⟩ (by decide) (by decide)
     (by decide) (by decide),
   ((C5_sixdigit_priority (strL "991345")).2.2 (by decide) (by decide) (by decide)
     (by decide)).1⟩

theorem workerRun_events_nonfatal (att : Str → ReadRes) (cancel : Nat → Bool)
    (envs : Nat → ItemEnv) (fs0 : List Str) (evs : List HtmlEvent)
    (hRead : readLoop att ENCODINGS = Except.ok evs)
    (hne : (feed evs).items.isEmpty = false) :
    ∃ suf, (workerRun att cancel envs fs0).events
      = Ev.meta (feed evs).items.length :: suf := by
  simp only [workerRun, hRead, hne, Bool.false_eq_true, if_false]
  obtain ⟨_, suf, hsuf⟩ := runItems_no_error (feed evs).items.length
    (max 1 ((feed evs).items.length / 100)) cancel envs (feed evs).items 1
    ⟨fs0, 0, 0, [Ev.meta (feed evs).items.length]⟩
  by_cases hc : (runItems (feed evs).items.length
      (max 1 ((feed evs).items.length / 100)) cancel envs (feed evs).items 1
      ⟨fs0, 0, 0, [Ev.meta (feed evs).items.length]⟩).2 = true
  · rw [if_pos hc]
    exact ⟨suf, by simpa using hsuf⟩
  · rw [if_neg hc]
    refine ⟨suf ++ [Ev.doneEv (runItems (feed evs).items.length
        (max 1 ((feed evs).items.length / 100)) cancel envs (feed evs).items 1
        ⟨fs0, 0, 0, [Ev.meta (feed evs).items.length]⟩).1.ok
      (runItems (feed evs).items.length (max 1 ((feed evs).items.length / 100))
        cancel envs (feed evs).items 1
        ⟨fs0, 0, 0, [Ev.meta (feed evs).items.length]⟩).1.fail], ?_⟩
    rw [hsuf]
    simp

theorem workerRun_no_error_events (att : Str → ReadRes) (cancel : Nat → Bool)
    (envs : Nat → ItemEnv) (fs0 : List Str) (evs : List HtmlEvent)
    (hRead : readLoop att ENCODINGS = Except.ok evs)
    (hne : (feed evs).items.isEmpty = false) :
    (workerRun att cancel envs fs0).events.countP isErrorEv = 0 := by
  simp only [workerRun, hRead, hne, Bool.false_eq_true, if_false]
  obtain ⟨hcount, _, _⟩ := runItems_no_error (feed evs).items.length
    (max 1 ((feed evs).items.length / 100)) cancel envs (feed evs).items 1
    ⟨fs0, 0, 0, [Ev.meta (feed evs).items.length]⟩
  by_cases hc : (runItems (feed evs).items.length
      (max 1 ((feed evs).items.length / 100)) cancel envs (feed evs).items 1
      ⟨fs0, 0, 0, [Ev.meta (feed evs).items.length]⟩).2 = true
  · rw [if_pos hc]
    rw [hcount]
    simp [List.countP_cons, isErrorEv]
  · rw [if_neg hc]
    rw [List.countP_append, hcount]
    simp [List.countP_cons, isErrorEv]

/-- C8: A fatal error occurs exactly when the encoding loop (UTF-8, Latin-1,
Windows-1252, ISO-8859-1, in that order) fails to produce a decoded document
or when zero media references are extracted; in both cases the event stream
is a single error event and the run terminates before any file is copied;
in every other run no error event at all is emitted. -/
theorem C8_fatal_conditions (att : Str → ReadRes) (cancel : Nat → Bool)
    (envs : Nat → ItemEnv) (fs0 : List Str) :
    ((∃ k, (workerRun att cancel envs fs0).events = [Ev.errorEv k])
      ↔ ((∃ k, readLoop att ENCODINGS = Except.error k)
         ∨ (∃ evs, readLoop att ENCODINGS = Except.ok evs ∧ (feed evs).items = [])))
    ∧ ((∃ k, (workerRun att cancel envs fs0).events = [Ev.errorEv k]) →
        (workerRun att cancel envs fs0).fs = fs0
        ∧ (workerRun att cancel envs fs0).okTotal = 0
        ∧ (workerRun att cancel envs fs0).failTotal = 0)
    ∧ (¬ ((∃ k, readLoop att ENCODINGS = Except.error k)
         ∨ (∃ evs, readLoop att ENCODINGS = Except.ok evs ∧ (feed evs).items = [])) →
        (workerRun att cancel envs fs0).events.countP isErrorEv = 0) := by
  cases hr : readLoop att ENCODINGS with
  | error k =>
    refine ⟨⟨fun _ => Or.inl ⟨k, rfl⟩, fun _ => ⟨k, by simp [workerRun, hr]⟩⟩, ?_, ?_⟩
    · intro _
      refine ⟨?_, ?_, ?_⟩ <;> simp [workerRun, hr]
    · intro h
      exact absurd (Or.inl ⟨k, rfl⟩) h
  | ok evs =>
    by_cases he : (feed evs).items.isEmpty
    · have hnil : (feed evs).items = [] := by simpa using he
      refine ⟨⟨fun _ => Or.inr ⟨evs, rfl, hnil⟩,
        fun _ => ⟨ErrKind.noMediaK, by simp [workerRun, hr, he]⟩⟩, ?_, ?_⟩
      · intro _
        refine ⟨?_, ?_, ?_⟩ <;> simp [workerRun, hr, he]
      · intro h
        exact absurd (Or.inr ⟨evs, rfl, hnil⟩) h
    · have hne : (feed evs).items.isEmpty = false := by simpa using he
      have hnotfatal : ¬ ((∃ k, (Except.ok evs : Except ErrKind (List HtmlEvent))
            = Except.error k)
          ∨ (∃ evs2, (Except.ok evs : Except ErrKind (List HtmlEvent)) = Except.ok evs2
              ∧ (feed evs2).items = [])) := by
        rintro (⟨k, hk⟩ | ⟨evs2, hk, hnil⟩)
        · exact absurd hk (by simp)
        · obtain rfl := Except.ok.inj hk
          rw [hnil] at hne
          simp at hne
      have hnosingle : ¬ ∃ k, (workerRun att cancel envs fs0).events = [Ev.errorEv k] := by
        rintro ⟨k, hk⟩
        obtain ⟨suf, hsuf⟩ := workerRun_events_nonfatal att cancel envs fs0 evs hr hne
        rw [hsuf] at hk
        have := (List.cons.inj hk).1
        exact absurd this (by simp)
      refine ⟨⟨fun h => absurd h hnosingle, fun h => absurd h hnotfatal⟩, ?_, ?_⟩
      · intro h
        exact absurd h hnosingle
      · intro _
        exact workerRun_no_error_events att cancel envs fs0 evs hr hne

def attNoDecode : Str → ReadRes := fun _ => ReadRes.decodeFail

theorem C8_fatal_conditions_witness :
    ∃ k, (workerRun attNoDecode (fun _ => false) envTrivial []).events = [Ev.errorEv k] :=
  (C8_fatal_conditions attNoDecode (fun _ => false) envTrivial []).1.mpr
    (Or.inl ⟨ErrKind.noDecodeK, rfl⟩)

/-- C9: When the cancellation flag (polled once before each item) is found
set before item k+1 after the first k items have been processed, the run
stops with succeeded+failed = k, its event stream ends with the cancellation
log message as the terminal event, and the destination tree is exactly the
one produced by the first k items — no further writes happen and nothing is
rolled back. -/
theorem C9_cancellation (att : Str → ReadRes) (cancel : Nat → Bool)
    (envs : Nat → ItemEnv) (fs0 : List Str) (evs : List HtmlEvent) (k : Nat)
    (hRead : readLoop att ENCODINGS = Except.ok evs)
    (hk : k < (feed evs).items.length)
    (hBefore : ∀ j, j < k → cancel (1 + j) = false)
    (hAt : cancel (1 + k) = true) :
    (workerRun att cancel envs fs0).okTotal
      + (workerRun att cancel envs fs0).failTotal = k
    ∧ (workerRun att cancel envs fs0).cancelled = true
    ∧ (workerRun att cancel envs fs0).fs
        = (processSeq (feed evs).items.length (max 1 ((feed evs).items.length / 100))
            envs ((feed evs).items.take k) 1
            ⟨fs0, 0, 0, [Ev.meta (feed evs).items.length]⟩).fs
    ∧ (workerRun att cancel envs fs0).events
        = (processSeq (feed evs).items.length (max 1 ((feed evs).items.length / 100))
            envs ((feed evs).items.take k) 1
            ⟨fs0, 0, 0, [Ev.meta (feed evs).items.length]⟩).events
          ++ [Ev.logCancel
                (processSeq (feed evs).items.length (max 1 ((feed evs).items.length / 100))
                  envs ((feed evs).items.take k) 1
                  ⟨fs0, 0, 0, [Ev.meta (feed evs).items.length]⟩).ok
                (processSeq (feed evs).items.length (max 1 ((feed evs).items.length / 100))
                  envs ((feed evs).items.take k) 1
                  ⟨fs0, 0, 0, [Ev.meta (feed evs).items.length]⟩).fail] := by
  have hne : (feed evs).items.isEmpty = false := by
    cases hi : (feed evs).items with
    | nil => rw [hi] at hk; simp at hk
    | cons a t => simp [hi]
  simp only [workerRun, hRead, hne, Bool.false_eq_true, if_false]
  rw [runItems_cancel_at (feed evs).items.length (max 1 ((feed evs).items.length / 100))
      cancel envs k (feed evs).items 1 ⟨fs0, 0, 0, [Ev.meta (feed evs).items.length]⟩
      hk hBefore hAt]
  refine ⟨?_, rfl, rfl, rfl⟩
  have htot := processSeq_count (feed evs).items.length
    (max 1 ((feed evs).items.length / 100)) envs ((feed evs).items.take k) 1
    ⟨fs0, 0, 0, [Ev.meta (feed evs).items.length]⟩
  have hlen : ((feed evs).items.take k).length = k := by
    rw [List.length_take]
    omega
  show (processSeq (feed evs).items.length (max 1 ((feed evs).items.length / 100))
      envs ((feed evs).items.take k) 1
      ⟨fs0, 0, 0, [Ev.meta (feed evs).items.length]⟩).ok
    + (processSeq (feed evs).items.length (max 1 ((feed evs).items.length / 100))
      envs ((feed evs).items.take k) 1
      ⟨fs0, 0, 0, [Ev.meta (feed evs).items.length]⟩).fail = k
  rw [htot, hlen]
  simp

def attTwoItems : Str → ReadRes :=
  fun _ => ReadRes.okRead
    [HtmlEvent.startTag (strL "img") [(strL "src", strL "a.jpg")],
     HtmlEvent.startTag (strL "img") [(strL "src", strL "b.jpg")]]

def cancelAfterOne : Nat → Bool := fun n => decide (2 ≤ n)

theorem C9_cancellation_witness :
    (workerRun attTwoItems cancelAfterOne envTrivial []).okTotal
      + (workerRun attTwoItems cancelAfterOne envTrivial []).failTotal = 1
    ∧ (workerRun attTwoItems cancelAfterOne envTrivial []).cancelled = true :=
  ⟨(C9_cancellation attTwoItems cancelAfterOne envTrivial []
      [HtmlEvent.startTag (strL "img") [(strL "src", strL "a.jpg")],
       HtmlEvent.startTag (strL "img") [(strL "src", strL "b.jpg")]] 1 rfl (by decide)
      (fun j hj => by interval_cases j; rfl) rfl).1,
   (C9_cancellation attTwoItems cancelAfterOne envTrivial []
      [HtmlEvent.startTag (strL "img") [(strL "src", strL "a.jpg")],
       HtmlEvent.startTag (strL "img") [(strL "src", strL "b.jpg")]] 1 rfl (by decide)
      (fun j hj => by interval_cases j; rfl) rfl).2.1⟩

end Memories
